import Mathlib

/-!
Verification of the motion-planning and execution core of the AxiDraw
Inkscape driver (`axidraw.py`).

The development shallowly embeds the arithmetic of the driver:

* the CoreXY step mapping and rounding discipline of `plot_seg_with_v`
  (exact rational arithmetic, with Python's round-half-to-even);
* the per-interval emission loop of `plot_seg_with_v` (too-slow-axis
  zeroing, overspeed recovery, cumulative motor-step bookkeeping);
* the constant-velocity branch of `plot_seg_with_v`;
* the pause/resume state machine `pause_res_check` and the guard
  structure of `plot_seg_with_v`;
* the checkpoint reader `read_plotdata`;
* the trajectory planner `plan_trajectory` (forward velocity pass,
  cornering cap, reverse deceleration pass), over the reals.

Velocity primitives (`vFinal_Vi_A_Dx`, `vInitial_VF_A_Dx`,
`dotProductXY`) live in the external `plotink.plot_utils` library, which
is not part of this repository; they are modelled from the spec (§4.2).
-/

namespace Axi

/-- Python's built-in `round` for exact rationals: round half to even.
Used for `int(round(...))` throughout `plot_seg_with_v`. -/
def pyRound (q : ℚ) : ℤ :=
  if q - ⌊q⌋ = 1 / 2 then (if ⌊q⌋ % 2 = 0 then ⌊q⌋ else ⌊q⌋ + 1) else round q

/-- Motor 1 step total: `motor_steps1 = int(round(step_scale * (dx + dy)))`
(axidraw.py line 1660; `motor_dist1 = delta_x + delta_y`). -/
def motorSteps1 (stepScale dx dy : ℚ) : ℤ :=
  pyRound (stepScale * (dx + dy))

/-- Motor 2 step total: `motor_steps2 = int(round(step_scale * (dx - dy)))`
(axidraw.py line 1661; `motor_dist2 = delta_x - delta_y`). -/
def motorSteps2 (stepScale dx dy : ℚ) : ℤ :=
  pyRound (stepScale * (dx - dy))

/-- Rounded belt distance for one motor:
`motor_dist_rounded = float(motor_steps) / (2.0 * step_scale)`
(axidraw.py lines 1666-1667). -/
def motorDistRounded (stepScale : ℚ) (steps : ℤ) : ℚ :=
  (steps : ℚ) / (2 * stepScale)

/-- Actually-commanded Cartesian x delta, recomputed from rounded steps:
`delta_x_inches_rounded = motor_dist1_rounded + motor_dist2_rounded`
(axidraw.py line 1670). -/
def deltaXRounded (stepScale : ℚ) (m1 m2 : ℤ) : ℚ :=
  motorDistRounded stepScale m1 + motorDistRounded stepScale m2

/-- Actually-commanded Cartesian y delta, recomputed from rounded steps:
`delta_y_inches_rounded = motor_dist1_rounded - motor_dist2_rounded`
(axidraw.py line 1671). -/
def deltaYRounded (stepScale : ℚ) (m1 m2 : ℤ) : ℚ :=
  motorDistRounded stepScale m1 - motorDistRounded stepScale m2

/-- Cumulative motor-step target list, from the distance-scaling loop:
`dest_array.append(int(round(dist_array[index] / position * motor_steps)))`
(axidraw.py lines 2060-2064). -/
def destArray (motorSteps : ℤ) (position : ℚ) (distArr : List ℚ) : List ℤ :=
  distArr.map fun d => pyRound (d / position * (motorSteps : ℚ))

/-- Duration chosen by the overspeed-recovery loop of `plot_seg_with_v`
(axidraw.py lines 2104-2107): starting from `t0`, `move_time` is
incremented by 1 ms while `|move_steps1|/move_time >= max_step_rate` or
`|move_steps2|/move_time >= max_step_rate`. For `rate > 0` the loop
terminates, and its result is the smallest time `>= t0` with both axes
strictly under the limit, here in closed form. -/
def overspeedTime (rate : ℚ) (m1 m2 : ℤ) (t0 : ℕ) : ℕ :=
  if 0 < rate then max t0 (⌊(max m1.natAbs m2.natAbs : ℚ) / rate⌋.toNat + 1) else t0

/-- One sub-interval of the per-interval emission loop of
`plot_seg_with_v` (axidraw.py lines 2076-2111): the raw step deltas
against the previous cumulative totals, the deltas after the
too-slow-axis rule, and the final duration after overspeed recovery. -/
structure EmitRec where
  pre1 : ℤ
  pre2 : ℤ
  post1 : ℤ
  post2 : ℤ
  dt : ℕ
  deriving DecidableEq, Repr

/-- Emission loop of `plot_seg_with_v` (axidraw.py lines 2076-2111).
Input rows are `(dest_array1[i], dest_array2[i], duration_array[i])`.
State `(prev1, prev2, ptime)` holds `prev_motor1`, `prev_motor2`,
`prev_time`.  Per row: `move_steps = dest - prev_motor`,
`move_time = max (duration - prev_time) 1`; an axis is zeroed when
`|move_steps|/move_time < 0.002` (exactly: `500*|move_steps| < move_time`);
then the overspeed loop extends `move_time`; finally
`prev_motor += move_steps` (after zeroing). -/
def emitTrace (rate : ℚ) (prev1 prev2 : ℤ) (ptime : ℕ) :
    List (ℤ × ℤ × ℕ) → List EmitRec
  | [] => []
  | (d1, d2, t) :: rows =>
    let pre1 := d1 - prev1
    let pre2 := d2 - prev2
    let mt0 : ℕ := max (t - ptime) 1
    let post1 := if 500 * pre1.natAbs < mt0 then 0 else pre1
    let post2 := if 500 * pre2.natAbs < mt0 then 0 else pre2
    let mt := overspeedTime rate post1 post2 mt0
    ⟨pre1, pre2, post1, post2, mt⟩ ::
      emitTrace rate (prev1 + post1) (prev2 + post2) t rows

/-- Commands actually sent to the controller: a sub-interval is emitted
only when `move_steps1 != 0 or move_steps2 != 0` (axidraw.py line 2114). -/
def emittedMoves (rate : ℚ) (rows : List (ℤ × ℤ × ℕ)) : List (ℤ × ℤ × ℕ) :=
  (emitTrace rate 0 0 0 rows).filterMap fun r =>
    if r.post1 ≠ 0 ∨ r.post2 ≠ 0 then some (r.post1, r.post2, r.dt) else none

/-- Interval rows fed to the emission loop of `plot_seg_with_v`: the
cumulative motor-step targets from the distance-scaling stage
(axidraw.py lines 2060-2064) paired with the duration array. -/
def segRows (m1 m2 : ℤ) (position : ℚ) (distArr : List ℚ) (durs : List ℕ) :
    List (ℤ × ℤ × ℕ) :=
  (destArray m1 position distArr).zip ((destArray m2 position distArr).zip durs)

/-- Velocity chosen by the constant-velocity branch of `plot_seg_with_v`
(axidraw.py lines 2046-2059): the constant pen-down speed when
`const_speed` is set with pen down; otherwise the larger endpoint
velocity; otherwise `speed_pendown / 10` when both endpoints are zero. -/
def constVelocity (constSpeed penUp : Bool) (speedPendown vi vf : ℚ) : ℚ :=
  if constSpeed = true ∧ penUp = false then speedPendown
  else if vi < vf then vf
  else if vf < vi then vi
  else if 0 < vi then vi
  else speedPendown / 10

/-- Mutable plot state consulted and updated by `pause_res_check`
(axidraw.py lines 2190-2281).  `stopped`, `node_count`, `node_target`,
`resume_mode` and the flags read by the check are modelled; fields the
check only logs through are omitted.  `modeResPlot` abbreviates
`options.mode == "res_plot"`. -/
structure PRState where
  stopped : ℤ
  nodeCount : ℤ
  nodeTarget : ℤ
  resumeMode : Bool
  delayBetweenCopies : Bool
  portOpen : Bool
  preview : Bool
  modeResPlot : Bool
  copiesToPlot : ℤ
  deriving DecidableEq, Repr

/-- Keyboard-interrupt stage of `pause_res_check` (axidraw.py lines
2207-2210): `receive_pause_request()` sets `stopped = -103`, downgraded
to `-2` when pausing between copies. -/
def prcKb (kb : Bool) (s : PRState) : PRState :=
  if kb then
    (if s.delayBetweenCopies then { s with stopped := -2 }
     else { s with stopped := -103 })
  else s

/-- Button-parse stage of `pause_res_check` (axidraw.py lines 2218-2225):
under `stopped == 0 and port is not None`, parse the button query;
a failed read (`none`) sets `stopped = -104` (lost connectivity) and
leaves `pause_button_pressed` at 0. -/
def prcButtonQuery (strButton : Option ℤ) (s : PRState) : PRState × ℤ :=
  if s.stopped = 0 ∧ s.portOpen then
    match strButton with
    | some b => (s, b)
    | none => ({ s with stopped := -104 }, 0)
  else (s, 0)

/-- Button-press stage of `pause_res_check` (axidraw.py lines 2227-2236):
a pressed button pauses with `-2` between copies, else `-102` (the
interactive and plot branches assign the same code). -/
def prcPressed (pressed : ℤ) (s : PRState) : PRState :=
  if pressed = 1 then
    (if s.delayBetweenCopies then { s with stopped := -2 }
     else { s with stopped := -102 })
  else s

/-- Res-plot node-skip stage of `pause_res_check` (axidraw.py lines
2241-2245): when stopped in `res_plot` mode before the resume target was
reached, `node_count` jumps to `node_target`. -/
def prcResSkip (s : PRState) : PRState :=
  if s.stopped ≠ 0 ∧ s.modeResPlot ∧ s.nodeCount < s.nodeTarget then
    { s with nodeCount := s.nodeTarget }
  else s

/-- Final stage of `pause_res_check` (axidraw.py lines 2247-2281): a
pending stop (`stopped < 0`) is flipped positive and the segment is not
counted; otherwise `node_count += 1` and resume mode is cleared once
`node_count >= node_target`. -/
def prcFinal (s : PRState) : PRState :=
  if s.stopped < 0 then { s with stopped := -s.stopped }
  else
    let s5 := { s with nodeCount := s.nodeCount + 1 }
    if s5.resumeMode ∧ s5.nodeTarget ≤ s5.nodeCount then
      { s5 with resumeMode := false }
    else s5

/-- The pause/resume check `pause_res_check` (axidraw.py lines 2190-2281).
Inputs: `kb` is `receive_pause_request()` (keyboard-interrupt flag) and
`button` is the parsed button query (`none` models a read that raises,
i.e. lost USB connectivity).  Early return when already stopped; in
preview mode `str_button` is the constant 0; then the stages above in
source order. -/
def pauseResCheck (kb : Bool) (button : Option ℤ) (s : PRState) : PRState :=
  if 0 < s.stopped then s
  else
    let strButton : Option ℤ := if s.preview then some 0 else button
    let q := prcButtonQuery strButton (prcKb kb s)
    prcFinal (prcResSkip (prcPressed q.2 q.1))

/-- Guard structure of one `plot_seg_with_v` call (axidraw.py lines
1598-2188): first `pause_res_check()`; if `stopped` is then nonzero the
call returns after clearing `copies_to_plot` (line 1632), emitting
nothing; a sub-step segment (`|motor_steps1| < 1 and |motor_steps2| < 1`,
line 1674) is skipped; in resume mode the per-interval guard (line 2122)
suppresses every emission; otherwise the emission loop runs on the
computed interval rows. -/
def plotSegRun (kb : Bool) (button : Option ℤ) (m1 m2 : ℤ)
    (rows : List (ℤ × ℤ × ℕ)) (rate : ℚ) (s : PRState) :
    PRState × List (ℤ × ℤ × ℕ) :=
  let s1 := pauseResCheck kb button s
  if s1.stopped ≠ 0 then ({ s1 with copiesToPlot := 0 }, [])
  else if m1 = 0 ∧ m2 = 0 then (s1, [])
  else if s1.resumeMode then (s1, [])
  else (s1, emittedMoves rate rows)

/-- A sequence of segment executions within one plot: each entry carries
the external inputs and payload of one `plot_seg_with_v` call.  Returns
the final state and the concatenation of all emitted move commands. -/
def runSegs (rate : ℚ) :
    List (Bool × Option ℤ × ℤ × ℤ × List (ℤ × ℤ × ℕ)) → PRState →
    PRState × List (ℤ × ℤ × ℕ)
  | [], s => (s, [])
  | (kb, button, m1, m2, rows) :: rest, s =>
    let out := plotSegRun kb button m1 m2 rows rate s
    let cont := runSegs rate rest out.1
    (cont.1, out.2 ++ cont.2)

/-- Attributes of the persisted `plotdata` checkpoint element as seen by
`read_plotdata` (axidraw.py lines 526-555).  A `none` field models a
missing attribute: `data_node.get` returns `None` and the `int`/`float`
conversion raises `TypeError`. -/
structure PlotdataNode where
  layer : Option ℤ
  node : Option ℤ
  lastPath : Option ℤ
  nodeAfterPath : Option ℤ
  lastKnownX : Option ℚ
  lastKnownY : Option ℚ
  pausedX : Option ℚ
  pausedY : Option ℚ
  application : Option String
  plobVersion : Option String
  row : Option ℤ
  randseed : Option ℤ
  deriving DecidableEq, Repr

/-- The driver state written by `read_plotdata`.  `nodeRemoved` records
that the checkpoint element was removed from the document
(`self.svg.remove(data_node)`, axidraw.py line 547). -/
structure PlotData where
  svgLayerOld : ℤ
  svgNodeCountOld : ℤ
  svgLastPathOld : ℤ
  svgLastPathNcOld : ℤ
  svgLastKnownXOld : ℚ
  svgLastKnownYOld : ℚ
  svgPausedXOld : ℚ
  svgPausedYOld : ℚ
  svgApplicationOld : Option String
  svgPlobVersion : Option String
  svgRowOld : ℤ
  svgRandSeedOld : ℤ
  svgDataRead : Bool
  nodeRemoved : Bool
  deriving DecidableEq, Repr

/-- Checkpoint reader `read_plotdata` (axidraw.py lines 526-555).
The core `try` block assigns the eight core fields in source order; the
first missing attribute raises `TypeError`, aborting the rest of the
block (earlier assignments stay applied), leaving `svg_data_read` false
and removing the element.  The two optional attributes (`row`,
`randseed`) are each read in their own `try`, keeping defaults when
missing. -/
def readPlotdata (d : Option PlotdataNode) (s : PlotData) : PlotData :=
  let s0 := { s with svgDataRead := false }
  match d with
  | none => s0
  | some nd =>
    let core :=
      match nd.layer with
      | none => { s0 with nodeRemoved := true }
      | some vLayer =>
        let sA := { s0 with svgLayerOld := vLayer }
        match nd.node with
        | none => { sA with nodeRemoved := true }
        | some vNode =>
          let sB := { sA with svgNodeCountOld := vNode }
          match nd.lastPath with
          | none => { sB with nodeRemoved := true }
          | some vLp =>
            let sC := { sB with svgLastPathOld := vLp }
            match nd.nodeAfterPath with
            | none => { sC with nodeRemoved := true }
            | some vNap =>
              let sD := { sC with svgLastPathNcOld := vNap }
              match nd.lastKnownX with
              | none => { sD with nodeRemoved := true }
              | some vLkx =>
                let sE := { sD with svgLastKnownXOld := vLkx }
                match nd.lastKnownY with
                | none => { sE with nodeRemoved := true }
                | some vLky =>
                  let sF := { sE with svgLastKnownYOld := vLky }
                  match nd.pausedX with
                  | none => { sF with nodeRemoved := true }
                  | some vPx =>
                    let sG := { sF with svgPausedXOld := vPx }
                    match nd.pausedY with
                    | none => { sG with nodeRemoved := true }
                    | some vPy =>
                      { sG with svgPausedYOld := vPy,
                                svgDataRead := true,
                                svgApplicationOld := nd.application,
                                svgPlobVersion := nd.plobVersion }
    let withRow :=
      match nd.row with
      | none => core
      | some r => { core with svgRowOld := r }
    match nd.randseed with
    | none => withRow
    | some rs => { withRow with svgRandSeedOld := rs }

/-- Modelled from the spec: `plot_utils.vFinal_Vi_A_Dx` from the external
`plotink` library (spec §4.2): `v_final(v_i, a, Δx) = √(v_i² + 2·a·Δx)`. -/
noncomputable def vFinal_Vi_A_Dx (vi a dx : ℝ) : ℝ :=
  Real.sqrt (vi ^ 2 + 2 * a * dx)

/-- Modelled from the spec: `plot_utils.vInitial_VF_A_Dx` from the
external `plotink` library (spec §4.2), called in the reverse pass with
acceleration `-a`: `v_initial(v_f, −a, Δx) = √(v_f² + 2·a·Δx)`. -/
noncomputable def vInitial_VF_A_Dx (vf a dx : ℝ) : ℝ :=
  Real.sqrt (vf ^ 2 - 2 * a * dx)

/-- Modelled from the spec: `plot_utils.dotProductXY` from the external
`plotink` library (spec §4.2): `dot(u, v) = u.x·v.x + u.y·v.y`, here on
pairs. `cosine_factor = -dotProductXY(traj_vectors[i-1], traj_vectors[i])`
(axidraw.py line 1497). -/
def cosineFactor (uPrev uCur : ℝ × ℝ) : ℝ :=
  -(uPrev.1 * uCur.1 + uPrev.2 * uCur.2)

/-- Cornering radius factor of `plan_trajectory` (axidraw.py lines
1499-1504): `root_factor = sqrt((1 - c)/2)`; if `1 - root_factor >
0.0001` then `delta * root_factor / (1 - root_factor)` else `100000`. -/
noncomputable def rfactorOf (delta c : ℝ) : ℝ :=
  if 0.0001 < 1 - Real.sqrt ((1 - c) / 2) then
    delta * Real.sqrt ((1 - c) / 2) / (1 - Real.sqrt ((1 - c) / 2))
  else 100000

/-- Junction velocity cap of `plan_trajectory` (axidraw.py line 1505):
`vjunction_max = sqrt(accel_rate * rfactor)`. -/
noncomputable def vjunctionOf (accelRate delta c : ℝ) : ℝ :=
  Real.sqrt (accelRate * rfactorOf delta c)

/-- One step of the forward velocity pass of `plan_trajectory`
(axidraw.py lines 1453-1509): the acceleration-limited cap (speed limit
when the arriving segment exceeds `accel_dist`, else
`vFinal_Vi_A_Dx(v_prev, a, d)` clamped to the speed limit), then the
cornering cap, combined with `min`. -/
noncomputable def fwdStep (speedLimit accelRate delta accelDist vPrev d : ℝ)
    (uPrev uCur : ℝ × ℝ) : ℝ :=
  min (if accelDist < d then speedLimit
       else if speedLimit < vFinal_Vi_A_Dx vPrev accelRate d then speedLimit
       else vFinal_Vi_A_Dx vPrev accelRate d)
    (vjunctionOf accelRate delta (cosineFactor uPrev uCur))

/-- Forward pass of `plan_trajectory` over the interior vertices: each
triple is `(traj_dists[i], traj_vectors[i-1], traj_vectors[i])` and
`vPrev` is the velocity at the previous vertex. -/
noncomputable def fwdPass (speedLimit accelRate delta accelDist : ℝ) :
    ℝ → List (ℝ × (ℝ × ℝ) × (ℝ × ℝ)) → List ℝ
  | _, [] => []
  | vPrev, (d, uPrev, uCur) :: rest =>
    let v := fwdStep speedLimit accelRate delta accelDist vPrev d uPrev uCur
    v :: fwdPass speedLimit accelRate delta accelDist v rest

/-- Velocity list after the forward pass of `plan_trajectory`
(axidraw.py lines 1306, 1453-1510): a leading 0 for the first vertex,
interior vertices from `fwdStep`, and a trailing 0 for the final vertex.
`delta = cornering / 5000` (line 1451) and
`accel_dist = 0.5 * accel_rate * t_max^2` with
`t_max = speed_limit / accel_rate` (lines 1374-1378).  `dists` is
`traj_dists[1:]` and `vecs` is `traj_vectors`. -/
noncomputable def planVels (speedLimit accelRate cornering : ℝ)
    (dists : List ℝ) (vecs : List (ℝ × ℝ)) : List ℝ :=
  (0 :: fwdPass speedLimit accelRate (cornering / 5000)
      (0.5 * accelRate * (speedLimit / accelRate) * (speedLimit / accelRate)) 0
      (dists.zip (vecs.zip vecs.tail))) ++ [0]

/-- Reverse deceleration pass of `plan_trajectory` (axidraw.py lines
1532-1546): descending over the vertices, when `v_initial > v_final`
and the arriving segment has positive length, the earlier velocity is
capped by `vInitial_VF_A_Dx(v_final, -a, seg_length)`.  Each vertex is
rewritten only after every later vertex has been finalised, so the
descending Python loop is the right-to-left recursion below. -/
noncomputable def revPass (accelRate : ℝ) : List ℝ → List ℝ → List ℝ
  | d :: dists, v0 :: vels =>
    match revPass accelRate dists vels with
    | [] => [v0]
    | v1 :: rest =>
      (if v1 < v0 ∧ 0 < d then
        (if vInitial_VF_A_Dx v1 (-accelRate) d < v0 then vInitial_VF_A_Dx v1 (-accelRate) d
         else v0)
       else v0) :: v1 :: rest
  | _, vels => vels

/-- Planned junction velocities of `plan_trajectory`: forward pass then
reverse deceleration pass. -/
noncomputable def planTrajectory (speedLimit accelRate cornering : ℝ)
    (dists : List ℝ) (vecs : List (ℝ × ℝ)) : List ℝ :=
  revPass accelRate dists (planVels speedLimit accelRate cornering dists vecs)

/-- Forward acceleration feasibility along a velocity chain: for each
consecutive pair `(v0, v1)` with arriving segment length `d`,
`v1² ≤ v0² + 2·a·d`. -/
def fwdFeas (a : ℝ) : List ℝ → List ℝ → Prop
  | d :: dists, v0 :: v1 :: vels =>
    v1 ^ 2 ≤ v0 ^ 2 + 2 * a * d ∧ fwdFeas a dists (v1 :: vels)
  | _, _ => True

/-- Bidirectional acceleration feasibility along a velocity chain: for
each consecutive pair `(v0, v1)` with arriving segment length `d`, both
`v1² ≤ v0² + 2·a·d` and `v0² ≤ v1² + 2·a·d`. -/
def bothFeas (a : ℝ) : List ℝ → List ℝ → Prop
  | d :: dists, v0 :: v1 :: vels =>
    (v1 ^ 2 ≤ v0 ^ 2 + 2 * a * d ∧ v0 ^ 2 ≤ v1 ^ 2 + 2 * a * d) ∧
      bothFeas a dists (v1 :: vels)
  | _, _ => True

end Axi

namespace Axi

/-! Theorems -/

/-- Python rounding moves a rational by at most one half. -/
theorem pyRound_abs_le (q : ℚ) : |(pyRound q : ℚ) - q| ≤ 1 / 2 := by
  unfold pyRound
  have habs : |(1 : ℚ) / 2| = 1 / 2 := abs_of_nonneg (by norm_num)
  by_cases h : q - ⌊q⌋ = 1 / 2
  · by_cases he : ⌊q⌋ % 2 = 0
    · rw [if_pos h, if_pos he]
      have h2 : (⌊q⌋ : ℚ) - q = -(1 / 2) := by linarith
      rw [h2, abs_neg, habs]
    · rw [if_pos h, if_neg he]
      have h2 : ((⌊q⌋ + 1 : ℤ) : ℚ) - q = 1 / 2 := by
        push_cast
        linarith
      rw [h2, habs]
  · rw [if_neg h, abs_sub_comm]
    exact abs_sub_round q

end Axi

namespace Axi

/-- Division of a sum of two half-bounded errors by `2 * s` stays within
`1 / (2 * s)`. -/
theorem err_sum_div_le (s e1 e2 : ℚ) (hs : 0 < s) (h1 : |e1| ≤ 1 / 2)
    (h2 : |e2| ≤ 1 / 2) : |(e1 + e2) / (2 * s)| ≤ 1 / (2 * s) := by
  have h2s : (0 : ℚ) < 2 * s := by linarith
  rw [abs_div, abs_of_pos h2s]
  have hsum : |e1 + e2| ≤ 1 := by
    calc |e1 + e2| ≤ |e1| + |e2| := abs_add _ _
      _ ≤ 1 := by linarith
  exact (div_le_div_iff_of_pos_right h2s).mpr hsum

/-- Claim C3 (amended): for every Cartesian delta and positive step
scale, the commanded delta recomputed from the rounded motor steps
differs from the input by at most `1 / (2 * step_scale)` on each axis;
the bound is attained at rounding ties, so it is not strict. -/
theorem step_scale_round_trip (s dx dy : ℚ) (hs : 0 < s) :
    |deltaXRounded s (motorSteps1 s dx dy) (motorSteps2 s dx dy) - dx| ≤ 1 / (2 * s) ∧
    |deltaYRounded s (motorSteps1 s dx dy) (motorSteps2 s dx dy) - dy| ≤ 1 / (2 * s) := by
  have he1 : |(motorSteps1 s dx dy : ℚ) - s * (dx + dy)| ≤ 1 / 2 := pyRound_abs_le _
  have he2 : |(motorSteps2 s dx dy : ℚ) - s * (dx - dy)| ≤ 1 / 2 := pyRound_abs_le _
  have hs' : s ≠ 0 := ne_of_gt hs
  constructor
  · have hx : deltaXRounded s (motorSteps1 s dx dy) (motorSteps2 s dx dy) - dx
        = (((motorSteps1 s dx dy : ℚ) - s * (dx + dy))
            + ((motorSteps2 s dx dy : ℚ) - s * (dx - dy))) / (2 * s) := by
      unfold deltaXRounded motorDistRounded
      field_simp
      ring
    rw [hx]
    exact err_sum_div_le s _ _ hs he1 he2
  · have hy : deltaYRounded s (motorSteps1 s dx dy) (motorSteps2 s dx dy) - dy
        = (((motorSteps1 s dx dy : ℚ) - s * (dx + dy))
            + -((motorSteps2 s dx dy : ℚ) - s * (dx - dy))) / (2 * s) := by
      unfold deltaYRounded motorDistRounded
      field_simp
      ring
    rw [hy]
    exact err_sum_div_le s _ _ hs he1 (by rwa [abs_neg])

/-- Witness for claim C3 (amended) at a concrete input. -/
theorem step_scale_round_trip_witness :
    |deltaXRounded 2032 (motorSteps1 2032 (1/4064) 0) (motorSteps2 2032 (1/4064) 0) - 1/4064|
        ≤ 1 / (2 * 2032) ∧
    |deltaYRounded 2032 (motorSteps1 2032 (1/4064) 0) (motorSteps2 2032 (1/4064) 0) - 0|
        ≤ 1 / (2 * 2032) :=
  step_scale_round_trip 2032 (1/4064) 0 (by norm_num)

/-- Counterexample to claim C3 as stated: at the rounding tie
`step_scale * dx = 1/2` (step scale 2032, `dx = 1/4064`, `dy = 0`) the
recomputed x delta differs from the input by exactly `1/(2*step_scale)`,
so the strict bound fails. -/
theorem step_scale_round_trip_cex :
    ¬ |deltaXRounded 2032 (motorSteps1 2032 (1/4064) 0) (motorSteps2 2032 (1/4064) 0) - 1/4064|
        < 1 / (2 * 2032) := by
  have hm1 : motorSteps1 2032 (1/4064) 0 = 0 := by
    unfold motorSteps1
    norm_num [pyRound]
  have hm2 : motorSteps2 2032 (1/4064) 0 = 0 := by
    unfold motorSteps2
    norm_num [pyRound]
  rw [hm1, hm2]
  unfold deltaXRounded motorDistRounded
  have hval : ((0 : ℤ) : ℚ) / (2 * 2032) + ((0 : ℤ) : ℚ) / (2 * 2032) - 1/4064
      = -(1/4064) := by norm_num
  rw [hval, abs_neg, abs_of_nonneg (by norm_num)]
  norm_num

end Axi

namespace Axi

/-- Claim C10: in the constant-velocity branch, with nonnegative endpoint
velocities, the chosen velocity is strictly positive whenever
`speed_pendown > 0`, and it is the constant pen-down speed, or the larger
endpoint velocity, or `speed_pendown / 10` when both endpoints are zero;
hence `time_elapsed = segment_length_inches / velocity` never divides by
zero. -/
theorem const_velocity_pos (constSpeed penUp : Bool) (sp vi vf : ℚ)
    (hsp : 0 < sp) (hvi : 0 ≤ vi) (hvf : 0 ≤ vf) :
    0 < constVelocity constSpeed penUp sp vi vf ∧
    (constVelocity constSpeed penUp sp vi vf = sp ∨
     constVelocity constSpeed penUp sp vi vf = max vi vf ∨
     (vi = 0 ∧ vf = 0 ∧ constVelocity constSpeed penUp sp vi vf = sp / 10)) := by
  unfold constVelocity
  split_ifs with h1 h2 h3 h4
  · exact ⟨hsp, Or.inl rfl⟩
  · exact ⟨lt_of_le_of_lt hvi h2, Or.inr (Or.inl (max_eq_right (le_of_lt h2)).symm)⟩
  · exact ⟨lt_of_le_of_lt hvf h3, Or.inr (Or.inl (max_eq_left (le_of_lt h3)).symm)⟩
  · refine ⟨h4, Or.inr (Or.inl ?_)⟩
    have hfe : vf = vi := le_antisymm (not_lt.mp h2) (not_lt.mp h3)
    rw [hfe, max_self]
  · have hvi0 : vi = 0 := le_antisymm (not_lt.mp h4) hvi
    have hvf0 : vf = 0 := by
      have := not_lt.mp h2
      rw [hvi0] at this
      exact le_antisymm this hvf
    exact ⟨by positivity, Or.inr (Or.inr ⟨hvi0, hvf0, rfl⟩)⟩

/-- Witness for claim C10 at a concrete input. -/
theorem const_velocity_pos_witness :
    0 < constVelocity false false 5 0 0 ∧
    (constVelocity false false 5 0 0 = 5 ∨
     constVelocity false false 5 0 0 = max 0 0 ∨
     ((0:ℚ) = 0 ∧ (0:ℚ) = 0 ∧ constVelocity false false 5 0 0 = 5 / 10)) :=
  const_velocity_pos false false 5 0 0 (by norm_num) (by norm_num) (by norm_num)

/-- A pause check entered with the plot already stopped returns the state
unchanged (axidraw.py lines 2195-2196). -/
theorem pauseResCheck_of_stopped_pos (kb : Bool) (button : Option ℤ)
    (s : PRState) (h : 0 < s.stopped) : pauseResCheck kb button s = s := by
  unfold pauseResCheck
  rw [if_pos h]

/-- The keyboard stage leaves the node counter alone. -/
theorem prcKb_nodeCount (kb : Bool) (s : PRState) :
    (prcKb kb s).nodeCount = s.nodeCount := by
  unfold prcKb
  split_ifs <;> rfl

/-- The button-parse stage leaves the node counter alone. -/
theorem prcButtonQuery_nodeCount (sb : Option ℤ) (s : PRState) :
    ((prcButtonQuery sb s).1).nodeCount = s.nodeCount := by
  unfold prcButtonQuery
  split_ifs
  · cases sb <;> rfl
  · rfl

/-- The button-press stage leaves the node counter alone. -/
theorem prcPressed_nodeCount (p : ℤ) (s : PRState) :
    (prcPressed p s).nodeCount = s.nodeCount := by
  unfold prcPressed
  split_ifs <;> rfl

/-- The res-plot skip stage never decreases the node counter. -/
theorem prcResSkip_nodeCount_le (s : PRState) :
    s.nodeCount ≤ (prcResSkip s).nodeCount := by
  unfold prcResSkip
  split_ifs with h
  · exact le_of_lt h.2.2
  · exact le_refl _

/-- The res-plot skip stage preserves the stop code. -/
theorem prcResSkip_stopped (s : PRState) : (prcResSkip s).stopped = s.stopped := by
  unfold prcResSkip
  split_ifs <;> rfl

/-- With the plot running, the res-plot skip stage is the identity. -/
theorem prcResSkip_of_stopped_zero (s : PRState) (h : s.stopped = 0) :
    prcResSkip s = s := by
  unfold prcResSkip
  rw [if_neg]
  simp [h]

/-- The final stage never decreases the node counter. -/
theorem prcFinal_nodeCount_le (s : PRState) :
    s.nodeCount ≤ (prcFinal s).nodeCount := by
  simp only [prcFinal]
  split_ifs <;> simp

/-- If the final stage exits with the plot running, it entered with the
plot running and incremented the node counter. -/
theorem prcFinal_stopped_eq_zero (s : PRState) (h : (prcFinal s).stopped = 0) :
    s.stopped = 0 ∧ (prcFinal s).nodeCount = s.nodeCount + 1 := by
  simp only [prcFinal] at h ⊢
  split_ifs at h ⊢ with h1 h2
  · simp only at h
    exfalso
    omega
  · simp only at h ⊢
    exact ⟨h, trivial⟩
  · simp only at h ⊢
    exact ⟨h, trivial⟩

/-- Claim C5 (amended): `node_count` never decreases across a pause
check, and a consultation that begins and ends with the plot running
(`stopped = 0`) increments it by exactly 1.  A consultation entered with
`stopped > 0` returns without incrementing, and a pause-detecting
consultation in `res_plot` mode may jump `node_count` to `node_target`. -/
theorem pause_res_check_node_count (kb : Bool) (button : Option ℤ) (s : PRState) :
    s.nodeCount ≤ (pauseResCheck kb button s).nodeCount ∧
    (s.stopped = 0 → (pauseResCheck kb button s).stopped = 0 →
      (pauseResCheck kb button s).nodeCount = s.nodeCount + 1) := by
  by_cases h0 : 0 < s.stopped
  · rw [pauseResCheck_of_stopped_pos kb button s h0]
    exact ⟨le_refl _, fun h1 _ => by omega⟩
  · have hrw : pauseResCheck kb button s =
        prcFinal (prcResSkip (prcPressed
          (prcButtonQuery (if s.preview then some 0 else button) (prcKb kb s)).2
          (prcButtonQuery (if s.preview then some 0 else button) (prcKb kb s)).1)) := by
      unfold pauseResCheck
      rw [if_neg h0]
    set s3 := prcPressed
      (prcButtonQuery (if s.preview then some 0 else button) (prcKb kb s)).2
      (prcButtonQuery (if s.preview then some 0 else button) (prcKb kb s)).1 with hs3d
    have hnode3 : s3.nodeCount = s.nodeCount := by
      rw [hs3d, prcPressed_nodeCount, prcButtonQuery_nodeCount, prcKb_nodeCount]
    constructor
    · rw [hrw]
      calc s.nodeCount = s3.nodeCount := hnode3.symm
        _ ≤ (prcResSkip s3).nodeCount := prcResSkip_nodeCount_le _
        _ ≤ _ := prcFinal_nodeCount_le _
    · intro _ hfin
      rw [hrw] at hfin ⊢
      obtain ⟨hskip0, hinc⟩ := prcFinal_stopped_eq_zero _ hfin
      have hs30 : s3.stopped = 0 := by
        rw [prcResSkip_stopped] at hskip0
        exact hskip0
      rw [prcResSkip_of_stopped_zero _ hs30] at hinc
      rw [prcResSkip_of_stopped_zero _ hs30, hinc, hnode3]

/-- Witness for claim C5 (amended) at a concrete input. -/
theorem pause_res_check_node_count_witness :
    (⟨0, 5, 0, false, false, true, false, false, 1⟩ : PRState).nodeCount ≤
      (pauseResCheck false (some 0) ⟨0, 5, 0, false, false, true, false, false, 1⟩).nodeCount ∧
    ((⟨0, 5, 0, false, false, true, false, false, 1⟩ : PRState).stopped = 0 →
      (pauseResCheck false (some 0) ⟨0, 5, 0, false, false, true, false, false, 1⟩).stopped = 0 →
      (pauseResCheck false (some 0) ⟨0, 5, 0, false, false, true, false, false, 1⟩).nodeCount
        = (⟨0, 5, 0, false, false, true, false, false, 1⟩ : PRState).nodeCount + 1) :=
  pause_res_check_node_count false (some 0) _

/-- Counterexample to claim C5 as stated: a consultation entered with
`stopped > 0` (here `stopped = 1`, `node_count = 5`) returns with
`node_count` still 5, so not every consultation increments it by 1. -/
theorem pause_res_check_cex :
    (pauseResCheck false (some 0) ⟨1, 5, 0, false, false, true, false, false, 0⟩).nodeCount = 5 ∧
    ¬ (pauseResCheck false (some 0)
        ⟨1, 5, 0, false, false, true, false, false, 0⟩).nodeCount = 5 + 1 := by
  decide

end Axi

namespace Axi

/-- Claim C4: once `stopped` is positive, no further timed XY move
command is emitted for the rest of the plot: the pause check returns
immediately, the segment executor returns on entry, and every
per-interval emission is guarded on `stopped == 0`; the stop code is
retained across all remaining segment executions. -/
theorem pause_ordering (rate : ℚ)
    (inputs : List (Bool × Option ℤ × ℤ × ℤ × List (ℤ × ℤ × ℕ))) (s : PRState)
    (h : 0 < s.stopped) :
    (runSegs rate inputs s).2 = [] ∧ (runSegs rate inputs s).1.stopped = s.stopped := by
  induction inputs generalizing s with
  | nil => simp [runSegs]
  | cons x rest ih =>
    obtain ⟨kb, button, m1, m2, rows⟩ := x
    have hprc : pauseResCheck kb button s = s := pauseResCheck_of_stopped_pos kb button s h
    have hne : s.stopped ≠ 0 := by omega
    have hih := ih { s with copiesToPlot := 0 } h
    simp only [runSegs, plotSegRun, hprc, if_pos hne]
    exact ⟨by simpa using hih.1, hih.2⟩

/-- Witness for claim C4 at a concrete input. -/
theorem pause_ordering_witness :
    (runSegs 25 [(false, some 0, 1, 1, [(1, 1, 10)])]
        ⟨5, 0, 0, false, false, true, false, false, 3⟩).2 = [] ∧
    (runSegs 25 [(false, some 0, 1, 1, [(1, 1, 10)])]
        ⟨5, 0, 0, false, false, true, false, false, 3⟩).1.stopped
      = (⟨5, 0, 0, false, false, true, false, false, 3⟩ : PRState).stopped :=
  pause_ordering 25 _ _ (by decide)

/-- Prefix-sum bookkeeping of the emission loop: the raw delta of every
sub-interval is its cumulative target minus the running total of the
deltas applied so far. -/
theorem emitTrace_pre_eq (rate : ℚ) :
    ∀ (rows : List (ℤ × ℤ × ℕ)) (p1 p2 : ℤ) (t : ℕ) (k : ℕ), k < rows.length →
      ((emitTrace rate p1 p2 t rows).getD k ⟨0, 0, 0, 0, 0⟩).pre1
        = (rows.getD k (0, 0, 0)).1
          - (p1 + (((emitTrace rate p1 p2 t rows).take k).map (fun r => r.post1)).sum) ∧
      ((emitTrace rate p1 p2 t rows).getD k ⟨0, 0, 0, 0, 0⟩).pre2
        = (rows.getD k (0, 0, 0)).2.1
          - (p2 + (((emitTrace rate p1 p2 t rows).take k).map (fun r => r.post2)).sum) := by
  intro rows
  induction rows with
  | nil => intro p1 p2 t k hk; simp at hk
  | cons row rest ih =>
    obtain ⟨d1, d2, t'⟩ := row
    intro p1 p2 t k hk
    match k with
    | 0 => simp [emitTrace]
    | k + 1 =>
      have hk' : k < rest.length := by simpa using hk
      have hih := ih (p1 + (if 500 * (d1 - p1).natAbs < max (t' - t) 1 then 0 else d1 - p1))
        (p2 + (if 500 * (d2 - p2).natAbs < max (t' - t) 1 then 0 else d2 - p2)) t' k hk'
      simp only [emitTrace, List.getD_cons_succ, List.take_succ_cons, List.map_cons,
        List.sum_cons]
      constructor
      · rw [hih.1]
        omega
      · rw [hih.2]
        omega

/-- Claim C9: throughout the per-interval loop, the raw delta of
sub-interval `k` equals the cumulative target minus the sum of the
deltas actually applied in earlier sub-intervals, so steps zeroed by the
too-slow-axis rule are added into the next interval rather than lost. -/
theorem emit_loop_carry (rate : ℚ) (rows : List (ℤ × ℤ × ℕ)) (k : ℕ)
    (hk : k < rows.length) :
    ((emitTrace rate 0 0 0 rows).getD k ⟨0, 0, 0, 0, 0⟩).pre1
      = (rows.getD k (0, 0, 0)).1
        - (((emitTrace rate 0 0 0 rows).take k).map (fun r => r.post1)).sum ∧
    ((emitTrace rate 0 0 0 rows).getD k ⟨0, 0, 0, 0, 0⟩).pre2
      = (rows.getD k (0, 0, 0)).2.1
        - (((emitTrace rate 0 0 0 rows).take k).map (fun r => r.post2)).sum := by
  have h := emitTrace_pre_eq rate rows 0 0 0 k hk
  simpa using h

/-- Witness for claim C9 at a concrete input. -/
theorem emit_loop_carry_witness :
    ((emitTrace 25 0 0 0 [(1, 0, 1000), (1, 0, 1001)]).getD 1 ⟨0, 0, 0, 0, 0⟩).pre1
      = ([(1, 0, 1000), (1, 0, 1001)].getD 1 ((0 : ℤ), (0 : ℤ), (0 : ℕ))).1
        - (((emitTrace 25 0 0 0 [(1, 0, 1000), (1, 0, 1001)]).take 1).map
            (fun r => r.post1)).sum ∧
    ((emitTrace 25 0 0 0 [(1, 0, 1000), (1, 0, 1001)]).getD 1 ⟨0, 0, 0, 0, 0⟩).pre2
      = ([(1, 0, 1000), (1, 0, 1001)].getD 1 ((0 : ℤ), (0 : ℤ), (0 : ℕ))).2.1
        - (((emitTrace 25 0 0 0 [(1, 0, 1000), (1, 0, 1001)]).take 1).map
            (fun r => r.post2)).sum :=
  emit_loop_carry 25 _ 1 (by decide)

end Axi

namespace Axi

/-- The overspeed-recovery duration keeps both axes strictly below the
step-rate limit and never shrinks the interval. -/
theorem overspeedTime_bounds (rate : ℚ) (hrate : 0 < rate) (m1 m2 : ℤ)
    (t0 : ℕ) (ht0 : 1 ≤ t0) :
    1 ≤ overspeedTime rate m1 m2 t0 ∧
    (m1.natAbs : ℚ) < rate * (overspeedTime rate m1 m2 t0 : ℕ) ∧
    (m2.natAbs : ℚ) < rate * (overspeedTime rate m1 m2 t0 : ℕ) := by
  unfold overspeedTime
  rw [if_pos hrate]
  set a : ℚ := max (m1.natAbs : ℚ) (m2.natAbs : ℚ) with ha
  set T : ℕ := max t0 (⌊a / rate⌋.toNat + 1) with hT
  have h1 : 1 ≤ T := le_trans ht0 (le_max_left _ _)
  have hfl0 : 0 ≤ ⌊a / rate⌋ := Int.floor_nonneg.mpr (by positivity)
  have hTnat : ⌊a / rate⌋.toNat + 1 ≤ T := le_max_right _ _
  have hTZ : ⌊a / rate⌋ + 1 ≤ (T : ℤ) := by omega
  have hTub : (⌊a / rate⌋ : ℚ) + 1 ≤ (T : ℚ) := by exact_mod_cast hTZ
  have hmax : a < rate * (T : ℕ) := by
    have hdiv : a / rate < (⌊a / rate⌋ : ℚ) + 1 := Int.lt_floor_add_one _
    have hlt : a / rate < (T : ℚ) := lt_of_lt_of_le hdiv hTub
    calc a = a / rate * rate := by field_simp
    _ < (T : ℚ) * rate := mul_lt_mul_of_pos_right hlt hrate
    _ = rate * (T : ℕ) := by ring
  refine ⟨h1, lt_of_le_of_lt (le_max_left _ _) hmax, lt_of_le_of_lt (le_max_right _ _) hmax⟩

/-- Every record of the emission trace has a duration of at least 1 ms
and both axes strictly below the rate limit. -/
theorem emitTrace_rate_limit (rate : ℚ) (hrate : 0 < rate) :
    ∀ (rows : List (ℤ × ℤ × ℕ)) (p1 p2 : ℤ) (t : ℕ),
      ∀ r ∈ emitTrace rate p1 p2 t rows,
        1 ≤ r.dt ∧ |(r.post1 : ℚ)| / (r.dt : ℚ) < rate ∧
          |(r.post2 : ℚ)| / (r.dt : ℚ) < rate := by
  intro rows
  induction rows with
  | nil => intro p1 p2 t r hr; simp [emitTrace] at hr
  | cons row rest ih =>
    obtain ⟨d1, d2, t'⟩ := row
    intro p1 p2 t r hr
    simp only [emitTrace, List.mem_cons] at hr
    rcases hr with hr | hr
    · subst hr
      simp only []
      set post1 : ℤ := if 500 * (d1 - p1).natAbs < max (t' - t) 1 then 0 else d1 - p1
      set post2 : ℤ := if 500 * (d2 - p2).natAbs < max (t' - t) 1 then 0 else d2 - p2
      have hb := overspeedTime_bounds rate hrate post1 post2 (max (t' - t) 1)
        (le_max_right _ _)
      obtain ⟨hb1, hb2, hb3⟩ := hb
      have hdtpos : (0 : ℚ) < ((overspeedTime rate post1 post2 (max (t' - t) 1) : ℕ) : ℚ) := by
        exact_mod_cast lt_of_lt_of_le Nat.zero_lt_one hb1
      have habs1 : ((post1.natAbs : ℕ) : ℚ) = |(post1 : ℚ)| := by
        rw [Int.cast_natAbs, Int.cast_abs]
      have habs2 : ((post2.natAbs : ℕ) : ℚ) = |(post2 : ℚ)| := by
        rw [Int.cast_natAbs, Int.cast_abs]
      refine ⟨hb1, ?_, ?_⟩
      · rw [div_lt_iff₀ hdtpos, ← habs1]
        exact hb2
      · rw [div_lt_iff₀ hdtpos, ← habs2]
        exact hb3
    · exact ih _ _ _ r hr

/-- Claim C6: every sub-interval command actually emitted has a duration
of at least 1 ms and both axes strictly below `max_step_rate`; the
overspeed recovery (formalised as the closed form of the terminating
1 ms-extension loop in `overspeedTime`) guarantees the emitted stream
never contains a command at or above the rate limit. -/
theorem emitted_rate_limit (rate : ℚ) (rows : List (ℤ × ℤ × ℕ))
    (hrate : 0 < rate) :
    ∀ mv ∈ emittedMoves rate rows,
      1 ≤ mv.2.2 ∧ |(mv.1 : ℚ)| / (mv.2.2 : ℚ) < rate ∧
        |(mv.2.1 : ℚ)| / (mv.2.2 : ℚ) < rate := by
  intro mv hmv
  unfold emittedMoves at hmv
  rw [List.mem_filterMap] at hmv
  obtain ⟨r, hr, hfr⟩ := hmv
  have hb := emitTrace_rate_limit rate hrate rows 0 0 0 r hr
  by_cases hnz : r.post1 ≠ 0 ∨ r.post2 ≠ 0
  · rw [if_pos hnz] at hfr
    obtain rfl : (r.post1, r.post2, r.dt) = mv := Option.some.inj hfr
    exact hb
  · rw [if_neg hnz] at hfr
    exact absurd hfr (Option.noConfusion)

/-- Witness for claim C6 at a concrete input. -/
theorem emitted_rate_limit_witness :
    1 ≤ (10 : ℕ) ∧ |((1 : ℤ) : ℚ)| / ((10 : ℕ) : ℚ) < 25 ∧
      |((1 : ℤ) : ℚ)| / ((10 : ℕ) : ℚ) < 25 := by
  have htr : emitTrace 25 0 0 0 [((1 : ℤ), (1 : ℤ), (10 : ℕ))] = [⟨1, 1, 1, 1, 10⟩] := by
    norm_num [emitTrace, overspeedTime]
  have hmv : ((1 : ℤ), (1 : ℤ), (10 : ℕ)) ∈ emittedMoves 25 [((1 : ℤ), (1 : ℤ), (10 : ℕ))] := by
    unfold emittedMoves
    rw [htr]
    simp
  exact emitted_rate_limit 25 [((1 : ℤ), (1 : ℤ), (10 : ℕ))] (by norm_num) _ hmv

end Axi

namespace Axi

/-- Python rounding is the identity on integers. -/
theorem pyRound_intCast (n : ℤ) : pyRound ((n : ℤ) : ℚ) = n := by
  unfold pyRound
  rw [Int.floor_intCast]
  rw [if_neg (by simp)]
  exact round_intCast n

/-- One-step unfolding of the emission loop on a cons cell. -/
theorem emitTrace_cons (rate : ℚ) (p1 p2 : ℤ) (t : ℕ) (d1 d2 : ℤ) (u : ℕ)
    (rows : List (ℤ × ℤ × ℕ)) :
    emitTrace rate p1 p2 t ((d1, d2, u) :: rows)
      = ⟨d1 - p1, d2 - p2,
          (if 500 * (d1 - p1).natAbs < max (u - t) 1 then 0 else d1 - p1),
          (if 500 * (d2 - p2).natAbs < max (u - t) 1 then 0 else d2 - p2),
          overspeedTime rate
            (if 500 * (d1 - p1).natAbs < max (u - t) 1 then 0 else d1 - p1)
            (if 500 * (d2 - p2).natAbs < max (u - t) 1 then 0 else d2 - p2)
            (max (u - t) 1)⟩
        :: emitTrace rate
            (p1 + (if 500 * (d1 - p1).natAbs < max (u - t) 1 then 0 else d1 - p1))
            (p2 + (if 500 * (d2 - p2).natAbs < max (u - t) 1 then 0 else d2 - p2))
            u rows := rfl

/-- When no sub-interval's delta is zeroed by the too-slow-axis rule,
the applied deltas of the emission loop sum to the final cumulative
target minus the starting totals. -/
theorem emit_sum_rows (rate : ℚ) :
    ∀ (rows : List (ℤ × ℤ × ℕ)) (p1 p2 : ℤ) (t : ℕ) (last : ℤ × ℤ × ℕ),
      rows.getLast? = some last →
      (∀ r ∈ emitTrace rate p1 p2 t rows, r.post1 = r.pre1 ∧ r.post2 = r.pre2) →
      ((emitTrace rate p1 p2 t rows).map (fun r => r.post1)).sum = last.1 - p1 ∧
      ((emitTrace rate p1 p2 t rows).map (fun r => r.post2)).sum = last.2.1 - p2 := by
  intro rows
  induction rows with
  | nil => intro p1 p2 t last hlast hnd; simp at hlast
  | cons row rest ih =>
    obtain ⟨d1, d2, u⟩ := row
    intro p1 p2 t last hlast hnd
    cases rest with
    | nil =>
      have hl : ((d1, d2, u) : ℤ × ℤ × ℕ) = last := by simpa using hlast
      subst hl
      simp only [emitTrace] at hnd ⊢
      have h0 := hnd _ (List.mem_singleton.mpr rfl)
      obtain ⟨e1, e2⟩ := h0
      simp only at e1 e2
      simp only [List.map_cons, List.map_nil, List.sum_cons, List.sum_nil, add_zero]
      rw [e1, e2]
      exact ⟨rfl, rfl⟩
    | cons row' rest' =>
      have hlast' : (row' :: rest').getLast? = some last := by
        rwa [List.getLast?_cons_cons] at hlast
      rw [emitTrace_cons] at hnd ⊢
      set q1 : ℤ := if 500 * (d1 - p1).natAbs < max (u - t) 1 then 0 else d1 - p1 with hq1
      set q2 : ℤ := if 500 * (d2 - p2).natAbs < max (u - t) 1 then 0 else d2 - p2 with hq2
      have h0 := hnd _ (List.mem_cons_self _ _)
      obtain ⟨e1, e2⟩ := h0
      simp only at e1 e2
      have hnd' : ∀ r ∈ emitTrace rate (p1 + q1) (p2 + q2) u (row' :: rest'),
          r.post1 = r.pre1 ∧ r.post2 = r.pre2 := by
        intro r hr
        exact hnd r (List.mem_cons_of_mem _ hr)
      have hih := ih (p1 + q1) (p2 + q2) u last hlast' hnd'
      simp only [List.map_cons, List.sum_cons]
      constructor
      · rw [hih.1, e1]
        omega
      · rw [hih.2, e2]
        omega

/-- The last row fed to the emission loop carries the full rounded
motor-step totals, since the last entry of `dist_array` equals the final
`position`. -/
theorem segRows_getLast? (m1 m2 : ℤ) (position : ℚ) :
    ∀ (dist : List ℚ) (durs : List ℕ), durs.length = dist.length →
      dist.getLast? = some position →
      ∃ u, (segRows m1 m2 position dist durs).getLast?
        = some (pyRound (position / position * (m1 : ℚ)),
                pyRound (position / position * (m2 : ℚ)), u) := by
  intro dist
  induction dist with
  | nil => intro durs hlen hlast; simp at hlast
  | cons d rest ih =>
    intro durs hlen hlast
    cases durs with
    | nil => simp at hlen
    | cons u us =>
      have hlen' : us.length = rest.length := by simpa using hlen
      cases rest with
      | nil =>
        have hd : d = position := by simpa using hlast
        subst hd
        cases us with
        | nil => exact ⟨u, rfl⟩
        | cons u' us' => simp at hlen'
      | cons r' rest' =>
        have hlast' : (r' :: rest').getLast? = some position := by
          rwa [List.getLast?_cons_cons] at hlast
        cases us with
        | nil => simp at hlen'
        | cons u' us' =>
          obtain ⟨w, hw⟩ := ih (u' :: us') hlen' hlast'
          refine ⟨w, ?_⟩
          have hcons : segRows m1 m2 position (d :: r' :: rest') (u :: u' :: us')
              = (pyRound (d / position * (m1 : ℚ)), pyRound (d / position * (m2 : ℚ)), u)
                :: segRows m1 m2 position (r' :: rest') (u' :: us') := rfl
          have hcons2 : segRows m1 m2 position (r' :: rest') (u' :: us')
              = (pyRound (r' / position * (m1 : ℚ)), pyRound (r' / position * (m2 : ℚ)), u')
                :: segRows m1 m2 position rest' us' := rfl
          rw [hcons, hcons2, List.getLast?_cons_cons, ← hcons2, hw]

/-- Claim C2 (amended): for a non-skipped segment, when the
too-slow-axis rule does not zero any nonzero sub-interval delta, the
sums of the per-sub-interval step deltas applied by the emission loop
equal the rounded motor-step totals `motor_steps1`, `motor_steps2`
derived from the requested Cartesian delta; when the rule zeroes a
nonzero delta on the final sub-interval, steps are lost. -/
theorem executor_mass_balance (rate s dx dy position : ℚ) (distArr : List ℚ)
    (durs : List ℕ) (hpos : position ≠ 0)
    (hlen : durs.length = distArr.length)
    (hlast : distArr.getLast? = some position)
    (_hskip : ¬(motorSteps1 s dx dy = 0 ∧ motorSteps2 s dx dy = 0))
    (hnodrop : ∀ r ∈ emitTrace rate 0 0 0
        (segRows (motorSteps1 s dx dy) (motorSteps2 s dx dy) position distArr durs),
      r.post1 = r.pre1 ∧ r.post2 = r.pre2) :
    ((emitTrace rate 0 0 0
        (segRows (motorSteps1 s dx dy) (motorSteps2 s dx dy) position distArr durs)).map
          (fun r => r.post1)).sum = motorSteps1 s dx dy ∧
    ((emitTrace rate 0 0 0
        (segRows (motorSteps1 s dx dy) (motorSteps2 s dx dy) position distArr durs)).map
          (fun r => r.post2)).sum = motorSteps2 s dx dy := by
  obtain ⟨u, hu⟩ := segRows_getLast? (motorSteps1 s dx dy) (motorSteps2 s dx dy)
    position distArr durs hlen hlast
  have hsum := emit_sum_rows rate _ 0 0 0 _ hu hnodrop
  have hv1 : pyRound (position / position * ((motorSteps1 s dx dy : ℤ) : ℚ))
      = motorSteps1 s dx dy := by
    rw [div_self hpos, one_mul, pyRound_intCast]
  have hv2 : pyRound (position / position * ((motorSteps2 s dx dy : ℤ) : ℚ))
      = motorSteps2 s dx dy := by
    rw [div_self hpos, one_mul, pyRound_intCast]
  rcases hsum with ⟨hs1, hs2⟩
  constructor
  · rw [hs1]
    simp [hv1]
  · rw [hs2]
    simp [hv2]

end Axi

namespace Axi

/-- Witness for claim C2 (amended) at a concrete input. -/
theorem executor_mass_balance_witness :
    ((emitTrace 25 0 0 0 (segRows (motorSteps1 1 (7/10) (3/10))
        (motorSteps2 1 (7/10) (3/10)) 1 [1] [10])).map (fun r => r.post1)).sum
      = motorSteps1 1 (7/10) (3/10) ∧
    ((emitTrace 25 0 0 0 (segRows (motorSteps1 1 (7/10) (3/10))
        (motorSteps2 1 (7/10) (3/10)) 1 [1] [10])).map (fun r => r.post2)).sum
      = motorSteps2 1 (7/10) (3/10) := by
  have hm1 : motorSteps1 1 (7/10) (3/10) = 1 := by
    unfold motorSteps1
    norm_num [pyRound, round_eq]
  have hm2 : motorSteps2 1 (7/10) (3/10) = 0 := by
    unfold motorSteps2
    norm_num [pyRound, round_eq]
  apply executor_mass_balance 25 1 (7/10) (3/10) 1 [1] [10] (by norm_num)
    (by simp) (by simp)
  · rw [hm1]
    simp
  · rw [hm1, hm2]
    have hrows : segRows 1 0 1 [1] [10] = [(1, 0, 10)] := by
      simp only [segRows, destArray, List.map_cons, List.map_nil, List.zip_cons_cons,
        List.zip_nil_right]
      norm_num [pyRound, round_eq]
    rw [hrows]
    have htr : emitTrace 25 0 0 0 [((1 : ℤ), (0 : ℤ), (10 : ℕ))] = [⟨1, 0, 1, 0, 10⟩] := by
      rw [emitTrace_cons]
      norm_num [overspeedTime, emitTrace]
    rw [htr]
    intro r hr
    rw [List.mem_singleton] at hr
    subst hr
    exact ⟨rfl, rfl⟩

/-- Counterexample to claim C2 as stated: with `step_scale = 1`,
`(dx, dy) = (0.7, 0.3)` the motor-step totals are `(1, 0)`; with a
single 1000 ms sub-interval the too-slow-axis rule
(`|1| / 1000 < 0.002`) zeroes the only delta, so the emitted sum is 0,
not `motor_steps1 = 1`. -/
theorem executor_mass_balance_cex :
    motorSteps1 1 (7/10) (3/10) = 1 ∧
    ¬ (((emitTrace 25 0 0 0 (segRows (motorSteps1 1 (7/10) (3/10))
        (motorSteps2 1 (7/10) (3/10)) 1 [1] [1000])).map (fun r => r.post1)).sum
      = motorSteps1 1 (7/10) (3/10)) := by
  have hm1 : motorSteps1 1 (7/10) (3/10) = 1 := by
    unfold motorSteps1
    norm_num [pyRound, round_eq]
  have hm2 : motorSteps2 1 (7/10) (3/10) = 0 := by
    unfold motorSteps2
    norm_num [pyRound, round_eq]
  refine ⟨hm1, ?_⟩
  rw [hm1, hm2]
  have hrows : segRows 1 0 1 [1] [1000] = [(1, 0, 1000)] := by
    simp only [segRows, destArray, List.map_cons, List.map_nil, List.zip_cons_cons,
      List.zip_nil_right]
    norm_num [pyRound, round_eq]
  rw [hrows]
  have htr : emitTrace 25 0 0 0 [((1 : ℤ), (0 : ℤ), (1000 : ℕ))] = [⟨1, 0, 0, 0, 1000⟩] := by
    rw [emitTrace_cons]
    norm_num [overspeedTime, emitTrace]
  rw [htr]
  norm_num

end Axi

namespace Axi

set_option maxHeartbeats 1000000 in
/-- Claim C8 (amended): a present checkpoint node is read; the data-read
flag is set exactly when all eight core fields parse; on a type error
the flag stays false and the node is removed, but core fields parsed
before the failing one keep their newly assigned values (the record is
logically discarded, yet partially-applied core state remains in the
object's fields); missing optional fields keep their prior defaults. -/
theorem read_plotdata_amended (nd : PlotdataNode) (s : PlotData) :
    ((readPlotdata (some nd) s).svgDataRead = true ↔
      (nd.layer ≠ none ∧ nd.node ≠ none ∧ nd.lastPath ≠ none ∧
       nd.nodeAfterPath ≠ none ∧ nd.lastKnownX ≠ none ∧ nd.lastKnownY ≠ none ∧
       nd.pausedX ≠ none ∧ nd.pausedY ≠ none)) ∧
    (¬(nd.layer ≠ none ∧ nd.node ≠ none ∧ nd.lastPath ≠ none ∧
       nd.nodeAfterPath ≠ none ∧ nd.lastKnownX ≠ none ∧ nd.lastKnownY ≠ none ∧
       nd.pausedX ≠ none ∧ nd.pausedY ≠ none) →
      (readPlotdata (some nd) s).svgDataRead = false ∧
      (readPlotdata (some nd) s).nodeRemoved = true) ∧
    (nd.row = none → (readPlotdata (some nd) s).svgRowOld = s.svgRowOld) ∧
    (nd.randseed = none →
      (readPlotdata (some nd) s).svgRandSeedOld = s.svgRandSeedOld) ∧
    (∀ v, nd.layer = some v → nd.node = none →
      (readPlotdata (some nd) s).svgLayerOld = v) := by
  obtain ⟨l, n, lp, nap, lkx, lky, px, py, app, pv, row, rs⟩ := nd
  rcases row with _ | vrow <;> rcases rs with _ | vrs <;>
    rcases l with _ | v1 <;> rcases n with _ | v2 <;> rcases lp with _ | v3 <;>
    rcases nap with _ | v4 <;> rcases lkx with _ | v5 <;> rcases lky with _ | v6 <;>
    rcases px with _ | v7 <;> rcases py with _ | v8 <;>
    simp [readPlotdata]

end Axi

namespace Axi

/-- Witness for claim C8 (amended) at a concrete input. -/
theorem read_plotdata_amended_witness :
    ((readPlotdata (some ⟨some 1, some 2, some 3, some 4, some 0, some 0, some 0,
        some 0, none, none, none, none⟩)
        ⟨-2, 0, 0, 0, 0, 0, 0, 0, none, none, 0, 1, false, false⟩).svgDataRead = true ↔
      ((some 1 : Option ℤ) ≠ none ∧ (some 2 : Option ℤ) ≠ none ∧
       (some 3 : Option ℤ) ≠ none ∧ (some 4 : Option ℤ) ≠ none ∧
       (some 0 : Option ℚ) ≠ none ∧ (some 0 : Option ℚ) ≠ none ∧
       (some 0 : Option ℚ) ≠ none ∧ (some 0 : Option ℚ) ≠ none)) ∧
    (¬((some 1 : Option ℤ) ≠ none ∧ (some 2 : Option ℤ) ≠ none ∧
       (some 3 : Option ℤ) ≠ none ∧ (some 4 : Option ℤ) ≠ none ∧
       (some 0 : Option ℚ) ≠ none ∧ (some 0 : Option ℚ) ≠ none ∧
       (some 0 : Option ℚ) ≠ none ∧ (some 0 : Option ℚ) ≠ none) →
      (readPlotdata (some ⟨some 1, some 2, some 3, some 4, some 0, some 0, some 0,
        some 0, none, none, none, none⟩)
        ⟨-2, 0, 0, 0, 0, 0, 0, 0, none, none, 0, 1, false, false⟩).svgDataRead = false ∧
      (readPlotdata (some ⟨some 1, some 2, some 3, some 4, some 0, some 0, some 0,
        some 0, none, none, none, none⟩)
        ⟨-2, 0, 0, 0, 0, 0, 0, 0, none, none, 0, 1, false, false⟩).nodeRemoved = true) ∧
    ((none : Option ℤ) = none →
      (readPlotdata (some ⟨some 1, some 2, some 3, some 4, some 0, some 0, some 0,
        some 0, none, none, none, none⟩)
        ⟨-2, 0, 0, 0, 0, 0, 0, 0, none, none, 0, 1, false, false⟩).svgRowOld
        = (⟨-2, 0, 0, 0, 0, 0, 0, 0, none, none, 0, 1, false, false⟩ : PlotData).svgRowOld) ∧
    ((none : Option ℤ) = none →
      (readPlotdata (some ⟨some 1, some 2, some 3, some 4, some 0, some 0, some 0,
        some 0, none, none, none, none⟩)
        ⟨-2, 0, 0, 0, 0, 0, 0, 0, none, none, 0, 1, false, false⟩).svgRandSeedOld
        = (⟨-2, 0, 0, 0, 0, 0, 0, 0, none, none, 0, 1, false, false⟩ : PlotData).svgRandSeedOld) ∧
    (∀ v, (some 1 : Option ℤ) = some v → (some 2 : Option ℤ) = none →
      (readPlotdata (some ⟨some 1, some 2, some 3, some 4, some 0, some 0, some 0,
        some 0, none, none, none, none⟩)
        ⟨-2, 0, 0, 0, 0, 0, 0, 0, none, none, 0, 1, false, false⟩).svgLayerOld = v) :=
  read_plotdata_amended _ _

/-- Counterexample to claim C8 as stated: a checkpoint node whose
`layer` attribute parses but whose `node` attribute is missing leaves
`svg_layer_old = 7` assigned even though the record is discarded
(`svg_data_read` false, node removed) — partially-applied core state
remains. -/
theorem read_plotdata_cex :
    (readPlotdata (some ⟨some 7, none, none, none, none, none, none, none,
        none, none, none, none⟩)
        ⟨-2, 0, 0, 0, 0, 0, 0, 0, none, none, 0, 1, false, false⟩).svgDataRead = false ∧
    (readPlotdata (some ⟨some 7, none, none, none, none, none, none, none,
        none, none, none, none⟩)
        ⟨-2, 0, 0, 0, 0, 0, 0, 0, none, none, 0, 1, false, false⟩).nodeRemoved = true ∧
    ¬((readPlotdata (some ⟨some 7, none, none, none, none, none, none, none,
        none, none, none, none⟩)
        ⟨-2, 0, 0, 0, 0, 0, 0, 0, none, none, 0, 1, false, false⟩).svgLayerOld
      = (⟨-2, 0, 0, 0, 0, 0, 0, 0, none, none, 0, 1, false, false⟩ : PlotData).svgLayerOld) := by
  refine ⟨rfl, rfl, ?_⟩
  simp [readPlotdata]

end Axi

namespace Axi

/-- The cornering radius factor at a straight-through junction
(`c = -1`) takes the 100000 escape value. -/
theorem rfactorOf_neg_one (delta : ℝ) : rfactorOf delta (-1) = 100000 := by
  unfold rfactorOf
  have h1 : ((1 : ℝ) - (-1)) / 2 = 1 := by norm_num
  rw [h1, Real.sqrt_one]
  norm_num

/-- The cornering radius factor at a full reversal (`c = 1`) is zero. -/
theorem rfactorOf_one (delta : ℝ) : rfactorOf delta 1 = 0 := by
  unfold rfactorOf
  have h1 : ((1 : ℝ) - 1) / 2 = 0 := by norm_num
  rw [h1, Real.sqrt_zero]
  rw [if_pos (by norm_num)]
  norm_num

/-- Claim C7 (amended): under the planner's cornering cap with
`c = -û_prev · û_cur`, two collinear consecutive unit vectors give
`c = -1` and the straight-through escape `ρ = 10⁵`, so
`v_junction_max = √(a·10⁵)` (effectively unbounded, clamped by other
limits); a 180° reversal gives `c = +1` and `v_junction_max = 0`.  (The
claim as stated swaps the two values of `c`.) -/
theorem cornering_extremes (a delta : ℝ) (u : ℝ × ℝ) (hu : u.1 ^ 2 + u.2 ^ 2 = 1) :
    cosineFactor u u = -1 ∧
    vjunctionOf a delta (cosineFactor u u) = Real.sqrt (a * 100000) ∧
    cosineFactor u (-u.1, -u.2) = 1 ∧
    vjunctionOf a delta (cosineFactor u (-u.1, -u.2)) = 0 := by
  have hc1 : cosineFactor u u = -1 := by
    unfold cosineFactor
    rw [← hu]
    ring
  have hc2 : cosineFactor u (-u.1, -u.2) = 1 := by
    unfold cosineFactor
    show -(u.1 * -u.1 + u.2 * -u.2) = 1
    rw [← hu]
    ring
  refine ⟨hc1, ?_, hc2, ?_⟩
  · rw [hc1]
    unfold vjunctionOf
    rw [rfactorOf_neg_one]
  · rw [hc2]
    unfold vjunctionOf
    rw [rfactorOf_one, mul_zero, Real.sqrt_zero]

/-- Witness for claim C7 (amended) at a concrete input. -/
theorem cornering_extremes_witness :
    cosineFactor (1, 0) (1, 0) = -1 ∧
    vjunctionOf 1 1 (cosineFactor (1, 0) (1, 0)) = Real.sqrt (1 * 100000) ∧
    cosineFactor (1, 0) (-(1 : ℝ), -(0 : ℝ)) = 1 ∧
    vjunctionOf 1 1 (cosineFactor (1, 0) (-(1 : ℝ), -(0 : ℝ))) = 0 :=
  cornering_extremes 1 1 (1, 0) (by norm_num)

/-- Counterexample to claim C7 as stated: for the collinear unit-vector
pair `(1,0), (1,0)` the code computes `c = -1`, not `c = 1`; and at
`c = 1` the junction cap is `v_junction_max = 0`, not the unbounded
`ρ = 10⁵` value the claim attaches to `c = 1`. -/
theorem cornering_extremes_cex :
    cosineFactor (1, 0) (1, 0) = -1 ∧
    ¬ (cosineFactor (1, 0) (1, 0) = 1) ∧
    vjunctionOf 1 1 1 = 0 ∧
    ¬ (rfactorOf 1 1 = 100000) := by
  have hc : cosineFactor (1, 0) (1, 0) = -1 := by
    unfold cosineFactor
    norm_num
  refine ⟨hc, by rw [hc]; norm_num, ?_, ?_⟩
  · unfold vjunctionOf
    rw [rfactorOf_one, mul_zero, Real.sqrt_zero]
  · rw [rfactorOf_one]
    norm_num

end Axi

namespace Axi

/-- The junction velocity cap is nonnegative. -/
theorem vjunctionOf_nonneg (a delta c : ℝ) : 0 ≤ vjunctionOf a delta c := by
  unfold vjunctionOf
  exact Real.sqrt_nonneg _

/-- One forward-pass step is nonnegative and respects the forward
acceleration inequality against the previous vertex velocity. -/
theorem fwdStep_sq_le (L a delta AD vPrev d : ℝ) (uP uC : ℝ × ℝ)
    (ha : 0 < a) (hL : 0 ≤ L) (hd : 0 < d)
    (hAD : AD = 0.5 * a * (L / a) * (L / a)) :
    0 ≤ fwdStep L a delta AD vPrev d uP uC ∧
    (fwdStep L a delta AD vPrev d uP uC) ^ 2 ≤ vPrev ^ 2 + 2 * a * d := by
  have hvj : 0 ≤ vjunctionOf a delta (cosineFactor uP uC) := vjunctionOf_nonneg _ _ _
  have harg : 0 ≤ vPrev ^ 2 + 2 * a * d := by positivity
  unfold fwdStep
  split_ifs with h1 h2
  · have h2a : (0 : ℝ) < 2 * a := by linarith
    rw [hAD] at h1
    have hmul : (0.5 * a * (L / a) * (L / a)) * (2 * a) < d * (2 * a) :=
      mul_lt_mul_of_pos_right h1 h2a
    have hsimp : (0.5 * a * (L / a) * (L / a)) * (2 * a) = L ^ 2 := by
      field_simp
      ring
    have hL2 : L ^ 2 < 2 * a * d := by
      rw [hsimp] at hmul
      linarith
    refine ⟨le_min hL hvj, ?_⟩
    calc (min L (vjunctionOf a delta (cosineFactor uP uC))) ^ 2
        ≤ L ^ 2 := pow_le_pow_left₀ (le_min hL hvj) (min_le_left _ _) 2
      _ ≤ vPrev ^ 2 + 2 * a * d := by nlinarith [sq_nonneg vPrev]
  · have h3 : L ^ 2 < (vFinal_Vi_A_Dx vPrev a d) ^ 2 := pow_lt_pow_left₀ h2 hL (by norm_num)
    rw [vFinal_Vi_A_Dx, Real.sq_sqrt harg] at h3
    refine ⟨le_min hL hvj, ?_⟩
    calc (min L (vjunctionOf a delta (cosineFactor uP uC))) ^ 2
        ≤ L ^ 2 := pow_le_pow_left₀ (le_min hL hvj) (min_le_left _ _) 2
      _ ≤ vPrev ^ 2 + 2 * a * d := le_of_lt h3
  · have hvf : 0 ≤ vFinal_Vi_A_Dx vPrev a d := Real.sqrt_nonneg _
    refine ⟨le_min hvf hvj, ?_⟩
    calc (min (vFinal_Vi_A_Dx vPrev a d) (vjunctionOf a delta (cosineFactor uP uC))) ^ 2
        ≤ (vFinal_Vi_A_Dx vPrev a d) ^ 2 :=
          pow_le_pow_left₀ (le_min hvf hvj) (min_le_left _ _) 2
      _ = vPrev ^ 2 + 2 * a * d := by
          rw [vFinal_Vi_A_Dx]
          exact Real.sq_sqrt harg

end Axi

namespace Axi

/-- Unfolding of forward feasibility on a cons/cons chain. -/
theorem fwdFeas_cons (a d : ℝ) (D : List ℝ) (v0 v1 : ℝ) (V : List ℝ) :
    fwdFeas a (d :: D) (v0 :: v1 :: V) ↔
      (v1 ^ 2 ≤ v0 ^ 2 + 2 * a * d ∧ fwdFeas a D (v1 :: V)) := Iff.rfl

/-- Unfolding of bidirectional feasibility on a cons/cons chain. -/
theorem bothFeas_cons (a d : ℝ) (D : List ℝ) (v0 v1 : ℝ) (V : List ℝ) :
    bothFeas a (d :: D) (v0 :: v1 :: V) ↔
      ((v1 ^ 2 ≤ v0 ^ 2 + 2 * a * d ∧ v0 ^ 2 ≤ v1 ^ 2 + 2 * a * d) ∧
        bothFeas a D (v1 :: V)) := Iff.rfl

/-- One-step unfolding of the forward pass. -/
theorem fwdPass_cons (L a delta AD vPrev d : ℝ) (uP uC : ℝ × ℝ)
    (ts : List (ℝ × (ℝ × ℝ) × (ℝ × ℝ))) :
    fwdPass L a delta AD vPrev ((d, uP, uC) :: ts)
      = fwdStep L a delta AD vPrev d uP uC
        :: fwdPass L a delta AD (fwdStep L a delta AD vPrev d uP uC) ts := rfl

/-- The forward pass produces a nonnegative, forward-feasible velocity
chain, with the trailing zero of the final vertex appended. -/
theorem fwdChain_feas (L a delta AD : ℝ) (ha : 0 < a) (hL : 0 ≤ L)
    (hAD : AD = 0.5 * a * (L / a) * (L / a)) :
    ∀ (D : List ℝ) (U : List (ℝ × ℝ)) (vPrev : ℝ),
      0 ≤ vPrev → U.length = D.length → (∀ d ∈ D, 0 < d) →
      (∀ v ∈ (vPrev :: fwdPass L a delta AD vPrev (D.zip (U.zip U.tail))) ++ [0], 0 ≤ v) ∧
      fwdFeas a D ((vPrev :: fwdPass L a delta AD vPrev (D.zip (U.zip U.tail))) ++ [0]) := by
  intro D
  induction D with
  | nil =>
    intro U vPrev h0 _ _
    constructor
    · intro v hv
      simp [fwdPass] at hv
      rcases hv with hv | hv <;> simp [hv, h0]
    · simp [fwdPass, fwdFeas]
  | cons d D' ih =>
    intro U vPrev h0 hlen hd
    have hdpos : 0 < d := hd d (List.mem_cons_self _ _)
    cases U with
    | nil => simp at hlen
    | cons u U' =>
      have hlen' : U'.length = D'.length := by simpa using hlen
      cases U' with
      | nil =>
        have hD' : D' = [] := by
          have h := hlen'
          simp at h
          exact (List.length_eq_zero.mp h.symm)
        subst hD'
        constructor
        · intro v hv
          simp [fwdPass] at hv
          rcases hv with hv | hv <;> simp [hv, h0]
        · show fwdFeas a [d] ((vPrev :: fwdPass L a delta AD vPrev []) ++ [0])
          show fwdFeas a [d] [vPrev, 0]
          refine ⟨?_, trivial⟩
          have : (0 : ℝ) ^ 2 = 0 := by norm_num
          rw [this]
          positivity
      | cons u2 U'' =>
        have hstep := fwdStep_sq_le L a delta AD vPrev d u u2 ha hL hdpos hAD
        have hih := ih (u2 :: U'') (fwdStep L a delta AD vPrev d u u2) hstep.1
          (by simpa using hlen') (fun x hx => hd x (List.mem_cons_of_mem _ hx))
        have hz : (d :: D').zip ((u :: u2 :: U'').zip (u :: u2 :: U'').tail)
            = (d, u, u2) :: D'.zip ((u2 :: U'').zip (u2 :: U'').tail) := rfl
        rw [hz, fwdPass_cons]
        constructor
        · intro v hv
          simp only [List.cons_append, List.mem_cons] at hv
          rcases hv with hv | hv
          · rw [hv]; exact h0
          · exact hih.1 v (by simpa using hv)
        · show fwdFeas a (d :: D')
            (vPrev :: fwdStep L a delta AD vPrev d u u2
              :: (fwdPass L a delta AD (fwdStep L a delta AD vPrev d u u2)
                  (D'.zip ((u2 :: U'').zip (u2 :: U'').tail)) ++ [0]))
          rw [fwdFeas_cons]
          exact ⟨hstep.2, hih.2⟩

end Axi

namespace Axi

/-- The reverse deceleration pass only lowers velocities, keeps them
nonnegative, and establishes bidirectional acceleration feasibility from
a forward-feasible chain. -/
theorem revPass_feas (a : ℝ) (ha : 0 < a) :
    ∀ (D V : List ℝ), V.length = D.length + 1 →
      (∀ v ∈ V, 0 ≤ v) → (∀ d ∈ D, 0 < d) → fwdFeas a D V →
      (∀ v ∈ revPass a D V, 0 ≤ v) ∧
      List.Forall₂ (· ≤ ·) (revPass a D V) V ∧
      bothFeas a D (revPass a D V) := by
  intro D
  induction D with
  | nil =>
    intro V hlen hnn hd hf
    have hV : revPass a [] V = V := rfl
    rw [hV]
    exact ⟨hnn, List.forall₂_same.mpr (fun x _ => le_refl x), trivial⟩
  | cons d D' ih =>
    intro V hlen hnn hd hf
    have hdpos : 0 < d := hd d (List.mem_cons_self _ _)
    cases V with
    | nil => simp at hlen
    | cons v0 V1 =>
      have hlen1 : V1.length = D'.length + 1 := by simpa using hlen
      cases V1 with
      | nil => simp at hlen1
      | cons v1 V2 =>
        have hfc := (fwdFeas_cons a d D' v0 v1 V2).mp hf
        have hih := ih (v1 :: V2) hlen1 (fun v hv => hnn v (List.mem_cons_of_mem _ hv))
          (fun x hx => hd x (List.mem_cons_of_mem _ hx)) hfc.2
        obtain ⟨hnnR, hforR, hbothR⟩ := hih
        obtain ⟨w, W, hwle, hWfor, hwr⟩ :
            ∃ w W, w ≤ v1 ∧ List.Forall₂ (· ≤ ·) W V2 ∧
              revPass a D' (v1 :: V2) = w :: W := by
          rcases List.forall₂_cons_right_iff.mp hforR with ⟨w, W, h1, h2, h3⟩
          exact ⟨w, W, h1, h2, h3⟩
        have hrw : revPass a (d :: D') (v0 :: v1 :: V2)
            = (if w < v0 ∧ 0 < d then
                (if vInitial_VF_A_Dx w (-a) d < v0 then vInitial_VF_A_Dx w (-a) d
                 else v0)
               else v0) :: w :: W := by
          unfold revPass
          rw [hwr]
        have hv00 : 0 ≤ v0 := hnn v0 (List.mem_cons_self _ _)
        have hw0 : 0 ≤ w := by
          apply hnnR
          rw [hwr]
          exact List.mem_cons_self _ _
        have hwv1sq : w ^ 2 ≤ v1 ^ 2 := by
          have hv10 : 0 ≤ v1 := hnn v1 (List.mem_cons_of_mem _ (List.mem_cons_self _ _))
          exact pow_le_pow_left₀ hw0 hwle 2
        have harg : 0 ≤ w ^ 2 + 2 * a * d := by positivity
        have hsqrt_eq : vInitial_VF_A_Dx w (-a) d = Real.sqrt (w ^ 2 + 2 * a * d) := by
          unfold vInitial_VF_A_Dx
          congr 1
          ring
        have hforward : w ^ 2 ≤ (if w < v0 ∧ 0 < d then
            (if vInitial_VF_A_Dx w (-a) d < v0 then vInitial_VF_A_Dx w (-a) d else v0)
           else v0) ^ 2 + 2 * a * d := by
          split_ifs with hc hc2
          · rw [hsqrt_eq, Real.sq_sqrt harg]
            nlinarith
          · linarith [hfc.1]
          · linarith [hfc.1]
        have hreverse : (if w < v0 ∧ 0 < d then
            (if vInitial_VF_A_Dx w (-a) d < v0 then vInitial_VF_A_Dx w (-a) d else v0)
           else v0) ^ 2 ≤ w ^ 2 + 2 * a * d := by
          split_ifs with hc hc2
          · rw [hsqrt_eq, Real.sq_sqrt harg]
          · have h4 : v0 ≤ Real.sqrt (w ^ 2 + 2 * a * d) := by
              rw [← hsqrt_eq]
              exact not_lt.mp hc2
            have h5 : v0 ^ 2 ≤ (Real.sqrt (w ^ 2 + 2 * a * d)) ^ 2 :=
              pow_le_pow_left₀ hv00 h4 2
            rwa [Real.sq_sqrt harg] at h5
          · have hvw : v0 ≤ w := by
              by_contra hcon
              push_neg at hcon
              exact hc ⟨hcon, hdpos⟩
            have h5 : v0 ^ 2 ≤ w ^ 2 := pow_le_pow_left₀ hv00 hvw 2
            nlinarith
        have hv0'le : (if w < v0 ∧ 0 < d then
            (if vInitial_VF_A_Dx w (-a) d < v0 then vInitial_VF_A_Dx w (-a) d else v0)
           else v0) ≤ v0 := by
          split_ifs with hc hc2
          · exact le_of_lt hc2
          · exact le_refl _
          · exact le_refl _
        have hv0'0 : 0 ≤ (if w < v0 ∧ 0 < d then
            (if vInitial_VF_A_Dx w (-a) d < v0 then vInitial_VF_A_Dx w (-a) d else v0)
           else v0) := by
          split_ifs with hc hc2
          · rw [hsqrt_eq]
            exact Real.sqrt_nonneg _
          · exact hv00
          · exact hv00
        rw [hrw]
        rw [hwr] at hbothR
        refine ⟨?_, ?_, ?_⟩
        · intro v hv
          rcases List.mem_cons.mp hv with hv | hv
          · rw [hv]
            exact hv0'0
          · apply hnnR
            rw [hwr]
            exact hv
        · exact List.Forall₂.cons hv0'le (List.Forall₂.cons hwle hWfor)
        · rw [bothFeas_cons]
          exact ⟨⟨hforward, hreverse⟩, hbothR⟩

end Axi

namespace Axi

/-- Indexed reading of a bidirectionally feasible chain. -/
theorem bothFeas_getD (a : ℝ) :
    ∀ (D V : List ℝ) (i : ℕ), bothFeas a D V → i < D.length → i + 1 < V.length →
      ((V.getD (i + 1) 0) ^ 2 ≤ (V.getD i 0) ^ 2 + 2 * a * (D.getD i 0) ∧
       (V.getD i 0) ^ 2 ≤ (V.getD (i + 1) 0) ^ 2 + 2 * a * (D.getD i 0)) := by
  intro D
  induction D with
  | nil => intro V i _ hi _; simp at hi
  | cons d D' ih =>
    intro V i hb hi1 hi2
    cases V with
    | nil => simp at hi2
    | cons v0 V1 =>
      cases V1 with
      | nil =>
        simp only [List.length_cons, List.length_nil] at hi2
        omega
      | cons v1 V2 =>
        have hbc := (bothFeas_cons a d D' v0 v1 V2).mp hb
        match i with
        | 0 => simpa using hbc.1
        | i + 1 =>
          have hrec := ih (v1 :: V2) i hbc.2 (by simpa using hi1) (by simpa using hi2)
          simpa using hrec

/-- The forward pass yields one velocity per interior vertex. -/
theorem fwdPass_length (L a delta AD : ℝ) :
    ∀ (ts : List (ℝ × (ℝ × ℝ) × (ℝ × ℝ))) (v : ℝ),
      (fwdPass L a delta AD v ts).length = ts.length := by
  intro ts
  induction ts with
  | nil => intro v; rfl
  | cons x ts' ih =>
    intro v
    obtain ⟨d, uP, uC⟩ := x
    rw [fwdPass_cons]
    simp [ih]

/-- The forward-pass velocity list has one entry per vertex. -/
theorem planVels_length (L a c : ℝ) (D : List ℝ) (U : List (ℝ × ℝ))
    (hU : U.length = D.length) (hD : D ≠ []) :
    (planVels L a c D U).length = D.length + 1 := by
  unfold planVels
  have hDlen : 1 ≤ D.length := by
    cases D
    · simp at hD
    · simp
  simp [fwdPass_length, List.length_zip, List.length_tail, hU]
  omega

/-- The reverse pass preserves the length of the velocity list. -/
theorem revPass_length (a : ℝ) :
    ∀ (D V : List ℝ), (revPass a D V).length = V.length := by
  intro D
  induction D with
  | nil => intro V; rfl
  | cons d D' ih =>
    intro V
    cases V with
    | nil => rfl
    | cons v0 V1 =>
      have h := ih V1
      cases hr : revPass a D' V1 with
      | nil =>
        have hV1 : V1.length = 0 := by rw [← h, hr]; rfl
        unfold revPass
        rw [hr]
        simp [hV1]
      | cons w W =>
        unfold revPass
        rw [hr]
        have hlen : (w :: W).length = V1.length := by rw [← hr, h]
        simp only [List.length_cons] at hlen ⊢
        omega

/-- The planned trajectory has one velocity per vertex. -/
theorem planTrajectory_length (L a c : ℝ) (D : List ℝ) (U : List (ℝ × ℝ))
    (hU : U.length = D.length) (hD : D ≠ []) :
    (planTrajectory L a c D U).length = D.length + 1 := by
  unfold planTrajectory
  rw [revPass_length, planVels_length L a c D U hU hD]

/-- Claim C1: for every polyline accepted by the planner (positive
trimmed segment lengths, one unit vector per segment) and every corner
of the planned sequence, the planned junction speeds satisfy both
`v_{i+1}² ≤ v_i² + 2·a·d_{i+1}` and `v_i² ≤ v_{i+1}² + 2·a·d_{i+1}`:
the forward pass and the reverse deceleration pass together ensure
acceleration feasibility in both directions. -/
theorem plan_trajectory_feasible (L a corn : ℝ) (D : List ℝ) (U : List (ℝ × ℝ))
    (ha : 0 < a) (hL : 0 ≤ L) (hU : U.length = D.length) (hD : ∀ d ∈ D, 0 < d)
    (i : ℕ) (hi1 : i < D.length) (hi2 : i + 1 < (planTrajectory L a corn D U).length) :
    ((planTrajectory L a corn D U).getD (i + 1) 0) ^ 2
      ≤ ((planTrajectory L a corn D U).getD i 0) ^ 2 + 2 * a * (D.getD i 0) ∧
    ((planTrajectory L a corn D U).getD i 0) ^ 2
      ≤ ((planTrajectory L a corn D U).getD (i + 1) 0) ^ 2 + 2 * a * (D.getD i 0) := by
  have hDne : D ≠ [] := by
    intro h
    rw [h] at hi1
    simp at hi1
  have hchain := fwdChain_feas L a (corn / 5000)
    (0.5 * a * (L / a) * (L / a)) ha hL rfl D U 0 (le_refl 0) hU hD
  have hnn : ∀ v ∈ planVels L a corn D U, 0 ≤ v := hchain.1
  have hff : fwdFeas a D (planVels L a corn D U) := hchain.2
  have hVlen : (planVels L a corn D U).length = D.length + 1 :=
    planVels_length L a corn D U hU hDne
  have hrev := revPass_feas a ha D (planVels L a corn D U) hVlen hnn hD hff
  have hboth : bothFeas a D (planTrajectory L a corn D U) := hrev.2.2
  exact bothFeas_getD a D (planTrajectory L a corn D U) i hboth hi1 hi2

/-- Witness for claim C1 at a concrete input. -/
theorem plan_trajectory_feasible_witness :
    ((planTrajectory 1 1 5000 [1, 1] [(1, 0), (1, 0)]).getD (0 + 1) 0) ^ 2
      ≤ ((planTrajectory 1 1 5000 [1, 1] [(1, 0), (1, 0)]).getD 0 0) ^ 2
        + 2 * 1 * ([(1 : ℝ), 1].getD 0 0) ∧
    ((planTrajectory 1 1 5000 [1, 1] [(1, 0), (1, 0)]).getD 0 0) ^ 2
      ≤ ((planTrajectory 1 1 5000 [1, 1] [(1, 0), (1, 0)]).getD (0 + 1) 0) ^ 2
        + 2 * 1 * ([(1 : ℝ), 1].getD 0 0) := by
  have hlen : (planTrajectory 1 1 5000 [(1 : ℝ), 1]
      [((1 : ℝ), (0 : ℝ)), (1, 0)]).length = 3 := by
    rw [planTrajectory_length 1 1 5000 [1, 1] [(1, 0), (1, 0)] (by simp) (by simp)]
    simp
  exact plan_trajectory_feasible 1 1 5000 [1, 1] [(1, 0), (1, 0)] (by norm_num)
    (by norm_num) (by simp) (by intro d hd; simp at hd; subst hd; norm_num) 0
    (by simp) (by rw [hlen]; norm_num)

end Axi
